import Mathlib

/-!
Verification development for the LogFolderProcessor repository.

The repository is a React file-processing tool that reorganizes the
contents of an uploaded ZIP/TAR archive according to a JSON mapping.
The core logic (path normalization, archive-entry resolution, per-group
statistics accumulation, output-archive assembly) appears in several
variants of the `FileProcessor` component.  This file gives a shallow
embedding of that core logic over `List Char` / `String` / `List` data
and proves or refutes the stated properties.

Modelling conventions:
 - JS strings are Lean `String`s; byte buffers are `List Nat`.
 - A JSZip archive is a `List ZipEntry` in central-directory listing
   order; JS object-key lookup (`zip.files[k]`) is a first-match scan,
   which agrees with JS because object keys are unique.
 - JS `Array.prototype.find` is `List.find?`; `String.split('/')` is
   `String.splitOn "/"` (same semantics for a one-character separator,
   including `"".split('/') = [""]`).
 - JS falsy tests on strings (`matchingFile ? ... : null`,
   `pop() || link`) are explicit `= ""` tests.
-/

/-- One character step of the backslash-to-slash replacement in
`normalizeFilePath` (`path.replace(/\\/g, '/')`). -/
def repl (c : Char) : Char := if c = '\\' then '/' else c

/-- Collapse every run of consecutive slashes to a single slash,
the `replace(/\/+/g, '/')` step of `normalizeFilePath`. -/
def collapse : List Char → List Char
  | [] => []
  | [c] => [c]
  | a :: b :: rest =>
    if a = '/' ∧ b = '/' then collapse (b :: rest)
    else a :: collapse (b :: rest)

/-- PathNormalizer (part_000 line 65, part_001 line 184, part_002 lines
58 and 595, identical in every variant): backslashes to forward slashes,
strip leading slashes, collapse duplicate slashes. -/
def normalizeFilePath (p : String) : String :=
  ⟨collapse ((p.data.map repl).dropWhile (fun c => c = '/'))⟩

/-- Helper for `splitSlash`: accumulates the current segment in
reverse. -/
def splitSlashAux : List Char → List Char → List String
  | [], acc => [⟨acc.reverse⟩]
  | c :: rest, acc =>
    if c = '/' then ⟨acc.reverse⟩ :: splitSlashAux rest []
    else splitSlashAux rest (c :: acc)

/-- JS `String.prototype.split('/')`: split on every slash, keeping
empty segments (`''.split('/') = ['']`, `'/'.split('/') = ['', '']`). -/
def splitSlash (s : String) : List String := splitSlashAux s.data []

/-- Element-for-element prefix test on lists, used to model the JS
front-to-back and (after reversal) back-to-front comparison loops. -/
def listStarts {α : Type} [DecidableEq α] : List α → List α → Bool
  | [], _ => true
  | _ :: _, [] => false
  | a :: as, b :: bs => if a = b then listStarts as bs else false

/-- The backward segment-comparison loop of the segment-wise
`findFileInZip` / `findFileInTar` resolvers: for `i = 1 ..
searchParts.length`, `parts[parts.length - i]` must equal
`searchParts[searchParts.length - i]`; an entry with fewer segments
fails because the out-of-range JS index yields `undefined`.  That loop
is exactly: `searchParts` read backward is a prefix of `parts` read
backward. -/
def matchFromEnd (parts searchParts : List String) : Bool :=
  listStarts searchParts.reverse parts.reverse

/-- Substring occurrence test, the model of `String.prototype.includes`. -/
def hasSubL {α : Type} [DecidableEq α] (needle : List α) : List α → Bool
  | [] => needle.isEmpty
  | a :: t => listStarts needle (a :: t) || hasSubL needle t

/-- `String.prototype.toLowerCase`, modelled characterwise with
`Char.toLower`. -/
def lowerStr (s : String) : String := ⟨s.data.map Char.toLower⟩

/-- `hay.includes(needle)` for strings. -/
def hasSubStr (needle hay : String) : Bool := hasSubL needle.data hay.data

inductive Operation where
  | insert
  | update
deriving DecidableEq, Repr

/-- `determineOperation` (part_002 line 547): a link whose lowercased
text contains "update" or "modify" is classified as an update,
otherwise as an insert. -/
def determineOperation (link : String) : Operation :=
  if hasSubStr "update" (lowerStr link) || hasSubStr "modify" (lowerStr link) then .update
  else .insert

/-- One archive entry of a loaded JSZip object: the raw stored path
(the key of `zip.files`), the directory flag, and the entry bytes. -/
structure ZipEntry where
  name : String
  isDir : Bool
  content : List Nat
deriving DecidableEq, Repr

/-- JSZip `zip.file(name)`: exact lookup on the raw stored key;
directory entries yield `null`. -/
def zipFile (zip : List ZipEntry) (name : String) : Option ZipEntry :=
  match zip.find? (fun e => e.name == name) with
  | some e => if e.isDir then none else some e
  | none => none

/-- `findFileInZip`, segment-wise variant (part_000 line 69, part_001
line 188, part_002 line 599): exact raw-key lookup of the normalized
search path, then the first normalized entry path whose trailing
segments match, retrieved again by raw key.  The final JS expression
`matchingFile ? zip.file(matchingFile) : null` treats an empty matched
name as no match. -/
def findFileInZip (zip : List ZipEntry) (searchPath : String) : Option ZipEntry :=
  match zipFile zip (normalizeFilePath searchPath) with
  | some file => some file
  | none =>
    match (zip.map (fun e => normalizeFilePath e.name)).find? (fun f =>
        matchFromEnd (splitSlash f) (splitSlash (normalizeFilePath searchPath))) with
    | some matchingFile =>
      if matchingFile = "" then none else zipFile zip matchingFile
    | none => none

/-- `hay.endsWith(needle)` for strings, modelled on the character
lists. -/
def endsWithStr (hay needle : String) : Bool :=
  listStarts needle.data.reverse hay.data.reverse

namespace VariantB

/-- `findFileInZip`, prefix-trying variant (part_000 line 430, part_002
line 63): exact lookup, then with `MainTestFolder/` prepended, then with
a leading `MainTestFolder/` stripped (the JS `replace` removes the first
occurrence, which under the `startsWith` guard is the prefix), then a
plain string `endsWith` scan over the normalized entry names. -/
def findFileInZip (zip : List ZipEntry) (searchPath : String) : Option ZipEntry :=
  let n := normalizeFilePath searchPath
  match zipFile zip n with
  | some file => some file
  | none =>
  match zipFile zip ("MainTestFolder/" ++ n) with
  | some file => some file
  | none =>
  match (if listStarts "MainTestFolder/".data n.data then
           zipFile zip ⟨n.data.drop "MainTestFolder/".data.length⟩
         else none) with
  | some file => some file
  | none =>
    let allFiles := zip.map (fun e => normalizeFilePath e.name)
    match allFiles.find? (fun f => endsWithStr f n) with
    | some matchingFile =>
      if matchingFile = "" then none else zipFile zip matchingFile
    | none => none

end VariantB

/-- One TAR entry as produced by the tar-js reader: stored name and
byte buffer. -/
structure TarEntry where
  name : String
  buffer : List Nat
deriving DecidableEq, Repr

/-- The entry loop of `findFileInTar` (part_000 line 96, part_001 line
211, part_002 line 622): entries with a falsy name are skipped; the
first entry whose normalized path passes the backward segment comparison
yields its buffer. -/
def findFileInTarGo (normalizedSearchPath : String) : List TarEntry → Option (List Nat)
  | [] => none
  | entry :: rest =>
    if entry.name = "" then findFileInTarGo normalizedSearchPath rest
    else if matchFromEnd (splitSlash (normalizeFilePath entry.name))
        (splitSlash normalizedSearchPath) then
      some entry.buffer
    else findFileInTarGo normalizedSearchPath rest

/-- `findFileInTar`, segment-wise variant. -/
def findFileInTar (tar : List TarEntry) (searchPath : String) : Option (List Nat) :=
  findFileInTarGo (normalizeFilePath searchPath) tar

/-- `link.split('/').pop() || link`: the last `/`-separated segment of
the link, or the whole link when that segment is empty. -/
def popOr (link : String) : String :=
  if (splitSlash link).getLastD "" = "" then link else (splitSlash link).getLastD ""

/-- One character step of the group-name sanitization
`replace(/[^a-zA-Z0-9-_]/g, '_')`. -/
def sanitizeChar (c : Char) : Char :=
  if ('a' ≤ c ∧ c ≤ 'z') ∨ ('A' ≤ c ∧ c ≤ 'Z') ∨ ('0' ≤ c ∧ c ≤ '9') ∨ c = '-' ∨ c = '_' then c
  else '_'

/-- Group-name sanitization used by FileProcessor.tsx line 59, part_002
line 202 and part_000 line 479. -/
def sanitizeGroupName (s : String) : String := ⟨s.data.map sanitizeChar⟩

/-- One entry of a group's `files` list: display name plus the
insert/update classification. -/
structure FileRecord where
  name : String
  operation : Operation
deriving DecidableEq, Repr

/-- `FolderStats` of the part_002 main variant (lines 373-382). -/
structure FolderStats where
  name : String
  fileCount : Nat
  insertCount : Nat
  updateCount : Nat
  files : List FileRecord
deriving DecidableEq, Repr

/-- The `insertCount + updateCount == fileCount == files.length`
invariant, as a decidable check. -/
def statInvB (st : FolderStats) : Bool :=
  st.insertCount + st.updateCount == st.fileCount && st.fileCount == st.files.length

/-- Accumulator for processing a single group configuration: its
statistics, the output archive built so far as (path, bytes) pairs in
insertion order, and the processing log. -/
structure GroupAcc where
  stat : FolderStats
  out : List (String × List Nat)
  log : List String
deriving DecidableEq, Repr

/-- One parsed configuration-array element, as the part_002 main loop
classifies it: either skipped by the `!folderConfig || typeof
folderConfig !== 'object'` guard, or a group with its
`'Review Text'` name and `Links` strings. -/
inductive ConfigItem where
  | invalid
  | group (name : String) (links : List String)
deriving DecidableEq, Repr

/-- The parsed JSON configuration: either an array of items or any
non-array JSON value (object, string, number, boolean or null),
which the `Array.isArray` check rejects. -/
inductive ConfigJson where
  | arr (items : List ConfigItem)
  | nonArray (desc : String)
deriving DecidableEq, Repr

/-- The `ProcessingStatus` union of types.ts. -/
inductive RunStatus where
  | idle
  | processing
  | success
  | error
deriving DecidableEq, Repr

/-- Accumulator across group configurations. -/
structure RunAcc where
  stats : List FolderStats
  out : List (String × List Nat)
  log : List String
deriving DecidableEq, Repr

/-- Result of one processing run: final status, log, statistics, the
generated output blob (as its (path, bytes) content; `none` when the
run aborted before generating it), whether the archive bytes were read,
and the surfaced error message if any. -/
structure RunResult where
  status : RunStatus
  log : List String
  stats : List FolderStats
  output : Option (List (String × List Nat))
  archiveRead : Bool
  errorMsg : Option String
deriving DecidableEq, Repr

def opLabel : Operation → String
  | .insert => "insert"
  | .update => "update"

/-- The per-link body of the part_002 main processing loop (lines
685-710): log the link, resolve it with `findFileInZip`; on success
bump `fileCount`, classify with `determineOperation` on the raw link,
bump the matching counter, append the file record, and write the bytes
at `folderName/fileName` in the output archive; on failure only log the
not-found warning. -/
def stepLink (zip : List ZipEntry) (folderName : String) (acc : GroupAcc)
    (link : String) : GroupAcc :=
  match findFileInZip zip link with
  | some file =>
    { stat := { acc.stat with
        fileCount := acc.stat.fileCount + 1,
        insertCount := if determineOperation link = Operation.insert then
          acc.stat.insertCount + 1 else acc.stat.insertCount,
        updateCount := if determineOperation link = Operation.insert then
          acc.stat.updateCount else acc.stat.updateCount + 1,
        files := acc.stat.files ++ [⟨popOr link, determineOperation link⟩] },
      out := acc.out ++ [(folderName ++ "/" ++ popOr link, file.content)],
      log := acc.log ++ ["Processing file: " ++ link,
        "Successfully processed file: " ++ popOr link ++ " (" ++
          opLabel (determineOperation link) ++ ")"] }
  | none =>
    { acc with log := acc.log ++ ["Processing file: " ++ link,
        "Warning: File not found: " ++ link] }

/-- The per-group body of the part_002 main processing loop (lines
671-713): skipped items leave everything unchanged; a group starts from
zeroed statistics, folds its links with `stepLink` (the folder name is
the raw `'Review Text'` value - this variant does not sanitize), and
appends the finished statistics. -/
def processGroup (zip : List ZipEntry) (acc : RunAcc) (item : ConfigItem) : RunAcc :=
  match item with
  | .invalid => acc
  | .group name links =>
    ⟨acc.stats ++ [(links.foldl (stepLink zip name)
        ⟨⟨name, 0, 0, 0, []⟩, acc.out, acc.log ++ ["Processing folder: " ++ name]⟩).stat],
      (links.foldl (stepLink zip name)
        ⟨⟨name, 0, 0, 0, []⟩, acc.out, acc.log ++ ["Processing folder: " ++ name]⟩).out,
      (links.foldl (stepLink zip name)
        ⟨⟨name, 0, 0, 0, []⟩, acc.out, acc.log ++ ["Processing folder: " ++ name]⟩).log⟩

/-- `processFiles` of the part_002 main variant (lines 649-727),
abstracted over the already-parsed JSON value and the already-listed
archive: a non-array configuration throws `Invalid JSON format:
expected an array` before `JSZip.loadAsync(archiveFile)` runs (the load
is on line 669, after the check on lines 664-666), so the catch block
sets the error status with no output blob and no archive bytes read;
otherwise every group is processed and the output blob is generated.
Timestamps of `addDebugLog` are omitted from the modelled log lines. -/
def processFiles (cfg : ConfigJson) (zip : List ZipEntry) : RunResult :=
  match cfg with
  | .nonArray _ =>
    { status := .error,
      log := ["Starting file processing", "JSON configuration loaded successfully",
              "Error during processing: Invalid JSON format: expected an array"],
      stats := [], output := none, archiveRead := false,
      errorMsg := some "Invalid JSON format: expected an array" }
  | .arr items =>
    { status := .success,
      log := (items.foldl (processGroup zip)
        ⟨[], [], ["Starting file processing", "JSON configuration loaded successfully"]⟩).log
        ++ ["File processing completed successfully"],
      stats := (items.foldl (processGroup zip)
        ⟨[], [], ["Starting file processing", "JSON configuration loaded successfully"]⟩).stats,
      output := some (items.foldl (processGroup zip)
        ⟨[], [], ["Starting file processing", "JSON configuration loaded successfully"]⟩).out,
      archiveRead := true,
      errorMsg := none }

/-- The statistics a single group produces, independent of the ambient
output and log accumulators. -/
def groupStat (zip : List ZipEntry) (name : String) (links : List String) : FolderStats :=
  (links.foldl (stepLink zip name) ⟨⟨name, 0, 0, 0, []⟩, [], []⟩).stat

/-- The character list contains no backslash. -/
def noBackslash (l : List Char) : Bool := l.all (fun c => !(c == '\\'))

/-- The character list does not start with a slash. -/
def noLeadSlash : List Char → Bool
  | [] => true
  | c :: _ => !(c == '/')

/-- The character list has no two consecutive slashes. -/
def noDoubleSlash : List Char → Bool
  | a :: b :: rest => !(a == '/' && b == '/') && noDoubleSlash (b :: rest)
  | _ => true

/-- Modelled from the spec: the EntryResolver matching policy of spec
section 4.3, used as the refinement reference for claim C3 - step 1 is
an exact match of normalized entry path against normalized search path,
step 2 takes the first entry in listing order whose trailing segments
match, and there is no other lookup. -/
def specResolve (zip : List ZipEntry) (searchPath : String) : Option ZipEntry :=
  match zip.find? (fun e => normalizeFilePath e.name == normalizeFilePath searchPath) with
  | some e => some e
  | none =>
    zip.find? (fun e =>
      matchFromEnd (splitSlash (normalizeFilePath e.name))
        (splitSlash (normalizeFilePath searchPath)))

namespace VariantB

/-- The per-group ZIP body of the part_002 first variant (lines
190-239), which sanitizes the group name: a falsy name skips the group;
each well-formed link is normalized, resolved with the prefix-trying
`findFileInZip`, and on success its bytes are written at
`sanitizedName/fileName` where `fileName` is the last segment of the
normalized link (`pop()` with no fallback: an empty segment skips the
write).  Returns the (path, bytes) pairs this group adds to the output
archive. -/
def processGroup (zip : List ZipEntry) (name : String) (links : List String) :
    List (String × List Nat) :=
  if name = "" then []
  else
    links.foldl (fun out link =>
      if link = "" then out
      else
        match VariantB.findFileInZip zip (normalizeFilePath link) with
        | some file =>
          if (splitSlash (normalizeFilePath link)).getLastD "" = "" then out
          else out ++ [(sanitizeGroupName name ++ "/" ++
              (splitSlash (normalizeFilePath link)).getLastD "", file.content)]
        | none => out) []

end VariantB

/-! ## Properties of the path normalizer (claim C2 and shared lemmas) -/

theorem collapse_cons (a : Char) (l : List Char) : ∃ t, collapse (a :: l) = a :: t := by
  induction l generalizing a with
  | nil => exact ⟨[], rfl⟩
  | cons b rest ih =>
    by_cases h : a = '/' ∧ b = '/'
    · obtain ⟨t, ht⟩ := ih b
      refine ⟨t, ?_⟩
      rw [show collapse (a :: b :: rest) = collapse (b :: rest) by simp [collapse, h]]
      rw [ht, h.1, h.2]
    · exact ⟨collapse (b :: rest), by simp [collapse, h]⟩

theorem collapse_subset : ∀ l : List Char, collapse l ⊆ l
  | [] => by simp [collapse]
  | [c] => by simp [collapse]
  | a :: b :: rest => by
    intro x hx
    by_cases h : a = '/' ∧ b = '/'
    · rw [show collapse (a :: b :: rest) = collapse (b :: rest) by simp [collapse, h]] at hx
      exact List.mem_cons_of_mem _ (collapse_subset (b :: rest) hx)
    · rw [show collapse (a :: b :: rest) = a :: collapse (b :: rest) by simp [collapse, h]] at hx
      rcases List.mem_cons.mp hx with rfl | hx
      · exact List.mem_cons_self _ _
      · exact List.mem_cons_of_mem _ (collapse_subset (b :: rest) hx)

theorem map_repl_id {l : List Char} (h : noBackslash l = true) : l.map repl = l := by
  induction l with
  | nil => rfl
  | cons c t ih =>
    simp only [noBackslash, List.all_cons, Bool.and_eq_true, Bool.not_eq_true',
      beq_eq_false_iff_ne, ne_eq] at h
    simp only [List.map_cons]
    rw [show repl c = c by simp [repl, h.1]]
    rw [ih (by simpa [noBackslash] using h.2)]

theorem dropWhile_slash_id {l : List Char} (h : noLeadSlash l = true) :
    l.dropWhile (fun c => c = '/') = l := by
  cases l with
  | nil => rfl
  | cons c t =>
    simp only [noLeadSlash, Bool.not_eq_true', beq_eq_false_iff_ne, ne_eq] at h
    simp [List.dropWhile_cons, h]

theorem collapse_id : ∀ {l : List Char}, noDoubleSlash l = true → collapse l = l
  | [], _ => rfl
  | [_], _ => rfl
  | a :: b :: rest, h => by
    have h2 : noDoubleSlash (b :: rest) = true := by
      simp only [noDoubleSlash, Bool.and_eq_true] at h
      exact h.2
    by_cases hab : a = '/' ∧ b = '/'
    · exfalso
      simp only [noDoubleSlash, Bool.and_eq_true, Bool.not_eq_true'] at h
      rw [hab.1, hab.2] at h
      simp at h
    · rw [show collapse (a :: b :: rest) = a :: collapse (b :: rest) by simp [collapse, hab]]
      rw [collapse_id h2]

theorem noBackslash_map_repl (l : List Char) : noBackslash (l.map repl) = true := by
  simp only [noBackslash, List.all_map, List.all_eq_true]
  intro c _
  by_cases hc : c = '\\' <;> simp [repl, hc]

theorem noBackslash_of_subset {l m : List Char} (hs : m ⊆ l) (h : noBackslash l = true) :
    noBackslash m = true := by
  simp only [noBackslash, List.all_eq_true] at h ⊢
  exact fun c hc => h c (hs hc)

theorem dropWhile_head_not {p : Char → Bool} :
    ∀ {l t : List Char} {c : Char}, l.dropWhile p = c :: t → p c = false := by
  intro l
  induction l with
  | nil => intro t c h; cases h
  | cons a l' ih =>
    intro t c h
    by_cases ha : p a
    · rw [List.dropWhile_cons_of_pos ha] at h
      exact ih h
    · rw [List.dropWhile_cons_of_neg ha] at h
      cases h
      simpa using ha

theorem noLead_normalize (l : List Char) :
    noLeadSlash (collapse (l.dropWhile (fun c => c = '/'))) = true := by
  cases hd : l.dropWhile (fun c => c = '/') with
  | nil => rfl
  | cons c t =>
    have hc : (decide (c = '/')) = false := dropWhile_head_not hd
    obtain ⟨t', ht'⟩ := collapse_cons c t
    rw [ht']
    simp only [noLeadSlash, Bool.not_eq_true']
    simpa using hc

theorem noDouble_collapse : ∀ l : List Char, noDoubleSlash (collapse l) = true
  | [] => rfl
  | [_] => rfl
  | a :: b :: rest => by
    by_cases h : a = '/' ∧ b = '/'
    · rw [show collapse (a :: b :: rest) = collapse (b :: rest) by simp [collapse, h]]
      exact noDouble_collapse (b :: rest)
    · rw [show collapse (a :: b :: rest) = a :: collapse (b :: rest) by simp [collapse, h]]
      obtain ⟨t, ht⟩ := collapse_cons b rest
      rw [ht]
      simp only [noDoubleSlash, Bool.and_eq_true, Bool.not_eq_true']
      constructor
      · by_cases ha : a = '/' <;> by_cases hb : b = '/' <;>
          simp_all
      · rw [← ht]
        exact noDouble_collapse (b :: rest)

theorem normalize_noBackslash (p : String) : noBackslash (normalizeFilePath p).data = true := by
  show noBackslash (collapse ((p.data.map repl).dropWhile (fun c => c = '/'))) = true
  refine noBackslash_of_subset (collapse_subset _) ?_
  refine noBackslash_of_subset (l := p.data.map repl) ?_ (noBackslash_map_repl p.data)
  exact fun c hc => (List.dropWhile_sublist _).subset hc

theorem normalize_noLead (p : String) : noLeadSlash (normalizeFilePath p).data = true :=
  noLead_normalize (p.data.map repl)

theorem normalize_noDouble (p : String) : noDoubleSlash (normalizeFilePath p).data = true :=
  noDouble_collapse _

theorem normalizeFilePath_idem (p : String) :
    normalizeFilePath (normalizeFilePath p) = normalizeFilePath p := by
  show (⟨collapse (((normalizeFilePath p).data.map repl).dropWhile (fun c => c = '/'))⟩ : String)
    = normalizeFilePath p
  rw [map_repl_id (normalize_noBackslash p)]
  rw [dropWhile_slash_id (normalize_noLead p)]
  rw [collapse_id (normalize_noDouble p)]

/-- C2: `normalizeFilePath` is a total function (every Lean `def` is),
idempotent, and its result contains no backslash, no leading slash and
no two consecutive slashes. -/
theorem c2_normalize_idempotent_clean (p : String) :
    normalizeFilePath (normalizeFilePath p) = normalizeFilePath p ∧
    noBackslash (normalizeFilePath p).data = true ∧
    noLeadSlash (normalizeFilePath p).data = true ∧
    noDoubleSlash (normalizeFilePath p).data = true :=
  ⟨normalizeFilePath_idem p, normalize_noBackslash p, normalize_noLead p, normalize_noDouble p⟩


/-! ## The segment-suffix property of the resolvers (claim C1) -/

theorem listStarts_iff {α : Type} [DecidableEq α] :
    ∀ (l₁ l₂ : List α), listStarts l₁ l₂ = true ↔ l₁ <+: l₂
  | [], l₂ => by simp [listStarts]
  | _ :: _, [] => by simp [listStarts, List.prefix_nil]
  | a :: as, b :: bs => by
    by_cases h : a = b
    · simp [listStarts, h, List.cons_prefix_cons, listStarts_iff as bs]
    · simp [listStarts, h, List.cons_prefix_cons]

theorem matchFromEnd_iff (parts searchParts : List String) :
    matchFromEnd parts searchParts = true ↔ searchParts <:+ parts := by
  rw [matchFromEnd, listStarts_iff]
  exact List.reverse_prefix

theorem zipFile_spec {zip : List ZipEntry} {n : String} {f : ZipEntry}
    (h : zipFile zip n = some f) : f ∈ zip ∧ f.name = n ∧ f.isDir = false := by
  unfold zipFile at h
  split at h
  next e' hf =>
    split at h
    next => cases h
    next hd =>
      cases h
      refine ⟨List.mem_of_find?_eq_some hf, ?_, by simpa using hd⟩
      have := List.find?_some hf
      simpa using this
  next => cases h

theorem findFileInTarGo_spec {n : String} :
    ∀ {tar : List TarEntry} {buf : List Nat}, findFileInTarGo n tar = some buf →
      ∃ e : TarEntry, e ∈ tar ∧ e.buffer = buf ∧
        matchFromEnd (splitSlash (normalizeFilePath e.name)) (splitSlash n) = true := by
  intro tar
  induction tar with
  | nil => intro buf h; cases h
  | cons entry rest ih =>
    intro buf h
    unfold findFileInTarGo at h
    by_cases h1 : entry.name = ""
    · rw [if_pos h1] at h
      obtain ⟨e, he, hb, hm⟩ := ih h
      exact ⟨e, List.mem_cons_of_mem _ he, hb, hm⟩
    · rw [if_neg h1] at h
      by_cases h2 : matchFromEnd (splitSlash (normalizeFilePath entry.name)) (splitSlash n) = true
      · rw [if_pos h2] at h
        cases h
        exact ⟨entry, List.mem_cons_self _ _, rfl, h2⟩
      · rw [if_neg (by simpa using h2)] at h
        obtain ⟨e, he, hb, hm⟩ := ih h
        exact ⟨e, List.mem_cons_of_mem _ he, hb, hm⟩

/-- C1, amended: the property holds for the segment-wise resolvers (the
`findFileInZip` of part_000 line 69 / part_001 line 188 / part_002 line
599, and `findFileInTar`): whenever they return a match, the matched
entry's normalized path, split on `/`, ends with exactly the segments
of the normalized search path over the search path's full length.  (The
prefix-trying `findFileInZip` variant of part_000 line 430 / part_002
line 63 does not guarantee this; see the counterexample.) -/
theorem c1_segment_suffix (zip : List ZipEntry) (tar : List TarEntry) (s : String) :
    (∀ e : ZipEntry, findFileInZip zip s = some e →
      splitSlash (normalizeFilePath s) <:+ splitSlash (normalizeFilePath e.name)) ∧
    (∀ buf : List Nat, findFileInTar tar s = some buf →
      ∃ e : TarEntry, e ∈ tar ∧ e.buffer = buf ∧
        splitSlash (normalizeFilePath s) <:+ splitSlash (normalizeFilePath e.name)) := by
  constructor
  · intro e h
    unfold findFileInZip at h
    split at h
    next f hz =>
      cases h
      obtain ⟨_, hname, _⟩ := zipFile_spec hz
      rw [hname, normalizeFilePath_idem]
    next hz =>
      split at h
      next m hm =>
        split at h
        next => cases h
        next hme =>
          obtain ⟨_, hname, _⟩ := zipFile_spec h
          have hmatch := List.find?_some hm
          have hmem := List.mem_of_find?_eq_some hm
          obtain ⟨a, _, ha⟩ := List.mem_map.mp hmem
          have hidem : normalizeFilePath m = m := by
            rw [← ha, normalizeFilePath_idem]
          rw [hname, hidem]
          exact (matchFromEnd_iff _ _).mp hmatch
      next => cases h
  · intro buf h
    obtain ⟨e, he, hb, hm⟩ := findFileInTarGo_spec h
    exact ⟨e, he, hb, (matchFromEnd_iff _ _).mp hm⟩

/-- C1 witness: at a concrete archive and link, the segment-wise
resolvers match and the suffix property is realized. -/
theorem c1_segment_suffix_witness :
    findFileInZip [⟨"a/b/c.txt", false, [1]⟩] "b/c.txt" = some ⟨"a/b/c.txt", false, [1]⟩ ∧
    (splitSlash (normalizeFilePath "b/c.txt") <:+ splitSlash (normalizeFilePath "a/b/c.txt")) ∧
    (∃ e : TarEntry, e ∈ [(⟨"a/b/c.txt", [2]⟩ : TarEntry)] ∧ e.buffer = [2] ∧
      splitSlash (normalizeFilePath "b/c.txt") <:+ splitSlash (normalizeFilePath e.name)) :=
  ⟨by decide,
   (c1_segment_suffix [⟨"a/b/c.txt", false, [1]⟩] [⟨"a/b/c.txt", [2]⟩] "b/c.txt").1
     ⟨"a/b/c.txt", false, [1]⟩ (by decide),
   (c1_segment_suffix [⟨"a/b/c.txt", false, [1]⟩] [⟨"a/b/c.txt", [2]⟩] "b/c.txt").2
     [2] (by decide)⟩

/-- C1 counterexample: the prefix-trying `findFileInZip` variant
(part_000 line 430 / part_002 line 63) resolves the link `b/c.txt` to
the entry `ab/c.txt` through the plain string `endsWith` test, although
that entry's segments do not end with the search path's segments - so
the claim as stated over that resolver is false. -/
theorem c1_endsWith_counterexample :
    VariantB.findFileInZip [⟨"ab/c.txt", false, [7]⟩] "b/c.txt"
      = some ⟨"ab/c.txt", false, [7]⟩ ∧
    ¬ (splitSlash (normalizeFilePath "b/c.txt") <:+ splitSlash (normalizeFilePath "ab/c.txt")) := by
  constructor
  · decide
  · intro h
    exact absurd ((matchFromEnd_iff _ _).mpr h) (by decide)

/-! ## The two-step matching policy (claim C3) -/

theorem find?_name_self {zip : List ZipEntry} {e₀ : ZipEntry}
    (inj : ∀ a ∈ zip, ∀ b ∈ zip, a.name = b.name → a = b) (he : e₀ ∈ zip) :
    zip.find? (fun e => e.name == e₀.name) = some e₀ := by
  induction zip with
  | nil => cases he
  | cons h t ih =>
    by_cases hn : h.name = e₀.name
    · have : h = e₀ :=
        inj h (List.mem_cons_self _ _) e₀ he hn
      rw [List.find?_cons_of_pos _ (by simpa using hn), this]
    · rw [List.find?_cons_of_neg _ (by simpa using hn)]
      have he' : e₀ ∈ t := by
        rcases List.mem_cons.mp he with rfl | he'
        · exact absurd rfl hn
        · exact he'
      exact ih (fun a ha b hb => inj a (List.mem_cons_of_mem _ ha) b (List.mem_cons_of_mem _ hb))
        he'

theorem zipFile_eq_find {zip : List ZipEntry} (n : String)
    (H : ∀ e ∈ zip, normalizeFilePath e.name = e.name ∧ e.isDir = false) :
    zipFile zip n = zip.find? (fun e => normalizeFilePath e.name == n) := by
  induction zip with
  | nil => rfl
  | cons e t ih =>
    have hN := (H e (List.mem_cons_self _ _)).1
    have hD := (H e (List.mem_cons_self _ _)).2
    by_cases hn : e.name = n
    · rw [List.find?_cons_of_pos _ (by rw [hN]; simpa using hn)]
      unfold zipFile
      rw [List.find?_cons_of_pos _ (by simpa using hn)]
      simp [hD]
    · rw [List.find?_cons_of_neg _ (by rw [hN]; simpa using hn)]
      unfold zipFile
      rw [List.find?_cons_of_neg _ (by simpa using hn)]
      rw [← ih (fun a ha => H a (List.mem_cons_of_mem _ ha))]
      rfl

/-- C3, amended: the segment-wise `findFileInZip` (part_001 line 188,
part_002 line 599, part_000 line 69) implements exactly the two-step
exact-then-first-suffix policy: over archives whose stored entry names
are already normalized, non-empty, pairwise distinct and non-directory,
it coincides with the policy resolver `specResolve`.  (The part_000
line 430 / part_002 line 63 variant performs two additional
`MainTestFolder/` lookups between the steps; see the counterexample.) -/
theorem c3_two_step (zip : List ZipEntry) (s : String)
    (H : ∀ e ∈ zip, normalizeFilePath e.name = e.name ∧ e.isDir = false ∧ e.name ≠ "")
    (inj : ∀ a ∈ zip, ∀ b ∈ zip, a.name = b.name → a = b) :
    findFileInZip zip s = specResolve zip s := by
  have H2 : ∀ e ∈ zip, normalizeFilePath e.name = e.name ∧ e.isDir = false :=
    fun e he => ⟨(H e he).1, (H e he).2.1⟩
  unfold findFileInZip specResolve
  rw [zipFile_eq_find (normalizeFilePath s) H2]
  cases hfind : zip.find? (fun e => normalizeFilePath e.name == normalizeFilePath s) with
  | some e => rfl
  | none =>
    rw [List.find?_map]
    cases hq : zip.find? ((fun f =>
        matchFromEnd (splitSlash f) (splitSlash (normalizeFilePath s))) ∘
          (fun e => normalizeFilePath e.name)) with
    | none =>
      rw [show zip.find? (fun e => matchFromEnd (splitSlash (normalizeFilePath e.name))
          (splitSlash (normalizeFilePath s))) = none from hq]
      rfl
    | some e₀ =>
      rw [show zip.find? (fun e => matchFromEnd (splitSlash (normalizeFilePath e.name))
          (splitSlash (normalizeFilePath s))) = some e₀ from hq]
      have he₀ := List.mem_of_find?_eq_some hq
      have hN := (H e₀ he₀).1
      have hD := (H e₀ he₀).2.1
      have hne := (H e₀ he₀).2.2
      show (if normalizeFilePath e₀.name = "" then none
        else zipFile zip (normalizeFilePath e₀.name)) = some e₀
      rw [hN, if_neg hne]
      unfold zipFile
      rw [find?_name_self inj he₀]
      simp [hD]

/-- C3 witness: on an archive with normalized, distinct, non-directory
entry names, the code resolver and the two-step policy resolver agree. -/
theorem c3_two_step_witness :
    findFileInZip [⟨"a/b.txt", false, [1]⟩, ⟨"c/d.txt", false, [2]⟩] "d.txt"
      = specResolve [⟨"a/b.txt", false, [1]⟩, ⟨"c/d.txt", false, [2]⟩] "d.txt" :=
  c3_two_step [⟨"a/b.txt", false, [1]⟩, ⟨"c/d.txt", false, [2]⟩] "d.txt"
    (by decide) (by decide)

/-- C3 counterexample: the prefix-trying variant resolves `x.txt` to the
`MainTestFolder/x.txt` entry through its extra prefix lookup, while the
two-step policy (exact, then first suffix match in listing order) picks
the earlier-listed `z/x.txt` - so the claim that no other lookup happens
between the two steps is false for that resolver. -/
theorem c3_counterexample :
    VariantB.findFileInZip [⟨"z/x.txt", false, [1]⟩, ⟨"MainTestFolder/x.txt", false, [2]⟩] "x.txt"
      = some ⟨"MainTestFolder/x.txt", false, [2]⟩ ∧
    specResolve [⟨"z/x.txt", false, [1]⟩, ⟨"MainTestFolder/x.txt", false, [2]⟩] "x.txt"
      = some ⟨"z/x.txt", false, [1]⟩ ∧
    (⟨"MainTestFolder/x.txt", false, [2]⟩ : ZipEntry) ≠ ⟨"z/x.txt", false, [1]⟩ := by
  refine ⟨by decide, by decide, by decide⟩

/-! ## Statistics accumulation (claims C4 and C9) -/

theorem statInv_stepLink {zip : List ZipEntry} {g : String} {acc : GroupAcc}
    (h : statInvB acc.stat = true) (link : String) :
    statInvB (stepLink zip g acc link).stat = true := by
  unfold stepLink
  cases hf : findFileInZip zip link with
  | none => simpa using h
  | some file =>
    simp only [statInvB, Bool.and_eq_true, beq_iff_eq] at h
    obtain ⟨h1, h2⟩ := h
    simp only [statInvB, Bool.and_eq_true, beq_iff_eq, List.length_append]
    cases hop : determineOperation link <;> simp <;> omega

theorem statInv_fold {zip : List ZipEntry} {g : String} :
    ∀ (links : List String) (acc : GroupAcc), statInvB acc.stat = true →
      statInvB (links.foldl (stepLink zip g) acc).stat = true
  | [], _, h => h
  | _ :: ls, _, h => statInv_fold ls _ (statInv_stepLink h _)

theorem stepLink_stat_congr {zip : List ZipEntry} {g : String} {a b : GroupAcc}
    (h : a.stat = b.stat) (l : String) :
    (stepLink zip g a l).stat = (stepLink zip g b l).stat := by
  unfold stepLink
  cases hf : findFileInZip zip l <;> simp [h]

theorem fold_stat_congr (zip : List ZipEntry) (g : String) :
    ∀ (ls : List String) (a b : GroupAcc), a.stat = b.stat →
      (ls.foldl (stepLink zip g) a).stat = (ls.foldl (stepLink zip g) b).stat
  | [], _, _, h => h
  | _ :: ls, _, _, h => fold_stat_congr zip g ls _ _ (stepLink_stat_congr h _)

theorem run_stats (zip : List ZipEntry) :
    ∀ (items : List ConfigItem) (acc : RunAcc),
      (items.foldl (processGroup zip) acc).stats
        = acc.stats ++ items.filterMap (fun it => match it with
            | ConfigItem.invalid => none
            | ConfigItem.group nm ls => some (groupStat zip nm ls))
  | [], _acc => by simp
  | it :: rest, acc => by
    cases it with
    | invalid =>
      show (rest.foldl (processGroup zip) (processGroup zip acc .invalid)).stats = _
      rw [run_stats zip rest _]
      simp [processGroup, List.filterMap_cons]
    | group nm ls =>
      show (rest.foldl (processGroup zip) (processGroup zip acc (.group nm ls))).stats = _
      rw [run_stats zip rest _]
      show (processGroup zip acc (.group nm ls)).stats ++ _ = _
      rw [show (processGroup zip acc (.group nm ls)).stats
          = acc.stats ++ [(ls.foldl (stepLink zip nm)
              ⟨⟨nm, 0, 0, 0, []⟩, acc.out, acc.log ++ ["Processing folder: " ++ nm]⟩).stat]
        from rfl]
      have hcong := fold_stat_congr zip nm ls
        ⟨⟨nm, 0, 0, 0, []⟩, acc.out, acc.log ++ ["Processing folder: " ++ nm]⟩
        ⟨⟨nm, 0, 0, 0, []⟩, [], []⟩ rfl
      rw [hcong]
      simp [groupStat, List.filterMap_cons]

/-- C4: every `FolderStats` record a completed run produces satisfies
`insertCount + updateCount == fileCount == files.length`, and the
invariant already holds after every per-link step of the accumulation
(the fold over any prefix `links.take n` of a group's links). -/
theorem c4_stats_invariant (zip : List ZipEntry) (items : List ConfigItem)
    (name : String) (links : List String) (n : Nat)
    (out0 : List (String × List Nat)) (log0 : List String) :
    (processFiles (.arr items) zip).stats.all statInvB = true ∧
    statInvB ((links.take n).foldl (stepLink zip name)
      ⟨⟨name, 0, 0, 0, []⟩, out0, log0⟩).stat = true := by
  constructor
  · rw [List.all_eq_true]
    intro st hst
    have hstats : (processFiles (.arr items) zip).stats
        = items.filterMap (fun it => match it with
            | ConfigItem.invalid => none
            | ConfigItem.group nm ls => some (groupStat zip nm ls)) := by
      show (items.foldl (processGroup zip) ⟨[], [],
        ["Starting file processing", "JSON configuration loaded successfully"]⟩).stats = _
      rw [run_stats]
      simp
    rw [hstats] at hst
    obtain ⟨it, _, hsome⟩ := List.mem_filterMap.mp hst
    cases it with
    | invalid => simp at hsome
    | group nm ls =>
      have hgs : groupStat zip nm ls = st := by simpa using hsome
      rw [← hgs]
      exact statInv_fold ls _ rfl
  · exact statInv_fold (links.take n) _ rfl

theorem stepLink_notfound {zip : List ZipEntry} {g link : String} {acc : GroupAcc}
    (h : findFileInZip zip link = none) :
    stepLink zip g acc link
      = { acc with log := acc.log ++ ["Processing file: " ++ link,
          "Warning: File not found: " ++ link] } := by
  unfold stepLink
  rw [h]

theorem groupStat_skip {zip : List ZipEntry} {nm link : String}
    (h : findFileInZip zip link = none) (pre post : List String) :
    groupStat zip nm (pre ++ link :: post) = groupStat zip nm (pre ++ post) := by
  unfold groupStat
  rw [List.foldl_append, List.foldl_append, List.foldl_cons]
  exact fold_stat_congr zip nm post _ _ (by rw [stepLink_notfound h])

/-- C9: a link that resolves to no archive entry produces no resolved
file and no output-archive write, leaves the group's statistics record
untouched, appends only the processing and not-found log lines, leaves
every other group's statistics exactly as they would be without that
link, and the run still completes with success status. -/
theorem c9_notfound_frame (zip : List ZipEntry) (g link : String)
    (h : findFileInZip zip link = none) (acc : GroupAcc)
    (pre post : List String) (items₁ items₂ : List ConfigItem) :
    stepLink zip g acc link
      = { acc with log := acc.log ++ ["Processing file: " ++ link,
          "Warning: File not found: " ++ link] } ∧
    (processFiles (.arr (items₁ ++ ConfigItem.group g (pre ++ link :: post) :: items₂)) zip).stats
      = (processFiles (.arr (items₁ ++ ConfigItem.group g (pre ++ post) :: items₂)) zip).stats ∧
    (processFiles (.arr (items₁ ++ ConfigItem.group g (pre ++ link :: post) :: items₂)) zip).status
      = RunStatus.success := by
  refine ⟨stepLink_notfound h, ?_, rfl⟩
  have h1 : (processFiles (.arr (items₁ ++ ConfigItem.group g (pre ++ link :: post) :: items₂))
      zip).stats = ((items₁ ++ ConfigItem.group g (pre ++ link :: post) :: items₂).foldl
        (processGroup zip) ⟨[], [],
          ["Starting file processing", "JSON configuration loaded successfully"]⟩).stats := rfl
  have h2 : (processFiles (.arr (items₁ ++ ConfigItem.group g (pre ++ post) :: items₂))
      zip).stats = ((items₁ ++ ConfigItem.group g (pre ++ post) :: items₂).foldl
        (processGroup zip) ⟨[], [],
          ["Starting file processing", "JSON configuration loaded successfully"]⟩).stats := rfl
  rw [h1, h2, run_stats, run_stats]
  simp only [List.filterMap_append, List.filterMap_cons]
  rw [groupStat_skip h pre post]

/-- C9 witness: the frame property realized at a concrete archive,
group and unresolvable link. -/
theorem c9_notfound_frame_witness :
    stepLink [⟨"x.txt", false, [1]⟩] "G" ⟨⟨"G", 0, 0, 0, []⟩, [], []⟩ "nope.bin"
      = ⟨⟨"G", 0, 0, 0, []⟩, [],
          ["Processing file: nope.bin", "Warning: File not found: nope.bin"]⟩ ∧
    (processFiles (.arr [ConfigItem.group "G" ["nope.bin"]]) [⟨"x.txt", false, [1]⟩]).stats
      = (processFiles (.arr [ConfigItem.group "G" []]) [⟨"x.txt", false, [1]⟩]).stats ∧
    (processFiles (.arr [ConfigItem.group "G" ["nope.bin"]]) [⟨"x.txt", false, [1]⟩]).status
      = RunStatus.success :=
  c9_notfound_frame [⟨"x.txt", false, [1]⟩] "G" "nope.bin" (by decide)
    ⟨⟨"G", 0, 0, 0, []⟩, [], []⟩ [] [] [] []

/-! ## Aborting on a non-array configuration (claim C8) -/

/-- C8: for every non-array parsed JSON configuration and every archive,
the run ends in the error status, produces no output blob, reads no
archive bytes (the `JSZip.loadAsync` call sits after the `Array.isArray`
check), and surfaces the validation message. -/
theorem c8_nonarray_aborts (desc : String) (zip : List ZipEntry) :
    (processFiles (.nonArray desc) zip).status = RunStatus.error ∧
    (processFiles (.nonArray desc) zip).output = none ∧
    (processFiles (.nonArray desc) zip).archiveRead = false ∧
    (processFiles (.nonArray desc) zip).errorMsg
      = some "Invalid JSON format: expected an array" :=
  ⟨rfl, rfl, rfl, rfl⟩

/-! ## Round-trip (claim C6) -/

/-- C6, amended: when `a/b/c.txt` is the only entry matching the link
(here: the only entry at all), the link `b/c.txt` resolves to it and the
output archive holds its bytes under the configured group directory with
basename `c.txt`.  (With another matching entry present the resolver can
pick that one instead; see the counterexample.) -/
theorem c6_roundtrip (content : List Nat) (g : String) :
    findFileInZip [⟨"a/b/c.txt", false, content⟩] "b/c.txt"
      = some ⟨"a/b/c.txt", false, content⟩ ∧
    (processFiles (.arr [ConfigItem.group g ["b/c.txt"]])
        [⟨"a/b/c.txt", false, content⟩]).output
      = some [(g ++ "/" ++ "c.txt", content)] ∧
    (processFiles (.arr [ConfigItem.group g ["b/c.txt"]])
        [⟨"a/b/c.txt", false, content⟩]).status = RunStatus.success :=
  ⟨rfl, rfl, rfl⟩

/-- C6 counterexample: an archive containing both `b/c.txt` and
`a/b/c.txt`.  The claim quantifies over every archive containing
`a/b/c.txt`, but here the link `b/c.txt` resolves to the exact-match
entry `b/c.txt` (bytes `[9]`), not to the `a/b/c.txt` entry (bytes
`[1]`), and the output holds the other entry's bytes. -/
theorem c6_counterexample :
    (⟨"a/b/c.txt", false, [1]⟩ : ZipEntry) ∈
      [(⟨"b/c.txt", false, [9]⟩ : ZipEntry), ⟨"a/b/c.txt", false, [1]⟩] ∧
    findFileInZip [⟨"b/c.txt", false, [9]⟩, ⟨"a/b/c.txt", false, [1]⟩] "b/c.txt"
      = some ⟨"b/c.txt", false, [9]⟩ ∧
    (⟨"b/c.txt", false, [9]⟩ : ZipEntry) ≠ ⟨"a/b/c.txt", false, [1]⟩ ∧
    (processFiles (.arr [ConfigItem.group "G" ["b/c.txt"]])
        [⟨"b/c.txt", false, [9]⟩, ⟨"a/b/c.txt", false, [1]⟩]).output
      = some [("G/c.txt", [9])] ∧
    ([9] : List Nat) ≠ [1] :=
  ⟨by decide, by decide, by decide, by decide, by decide⟩

/-! ## Group-name sanitization (claim C7) -/

theorem strData_append (s t : String) : (s ++ t).data = s.data ++ t.data := by
  cases s
  cases t
  rfl

theorem listStarts_append_self {α : Type} [DecidableEq α] :
    ∀ (l m : List α), listStarts l (l ++ m) = true
  | [], _ => rfl
  | a :: as, m => by
    show listStarts (a :: as) (a :: (as ++ m)) = true
    unfold listStarts
    rw [if_pos rfl]
    exact listStarts_append_self as m

theorem foldl_all_pred {α β : Type} (p : β → Bool) (f : List β → α → List β)
    (hf : ∀ acc x, acc.all p = true → (f acc x).all p = true) :
    ∀ (l : List α) (acc : List β), acc.all p = true → (l.foldl f acc).all p = true
  | [], _, h => h
  | _ :: l, acc, h => foldl_all_pred p f hf l _ (hf acc _ h)

/-- C7, amended: the sanitizing variants (FileProcessor.tsx line 59,
part_002 line 202, part_000 line 479) place every resolved file under
the sanitized group name: each output path of the sanitizing group body
starts with `sanitizeGroupName name ++ "/"`.  (The part_002 main variant
modelled by `processFiles` and the part_000 first variant use the raw
configured name instead; see the counterexample.) -/
theorem c7_sanitized_dir (zip : List ZipEntry) (name : String) (links : List String) :
    (VariantB.processGroup zip name links).all
      (fun pr => listStarts (sanitizeGroupName name ++ "/").data pr.1.data) = true := by
  unfold VariantB.processGroup
  by_cases hn : name = ""
  · rw [if_pos hn]
    rfl
  · rw [if_neg hn]
    refine foldl_all_pred _ _ ?_ links [] rfl
    intro acc link hacc
    by_cases hl : link = ""
    · rw [if_pos hl]
      exact hacc
    · rw [if_neg hl]
      cases hf : VariantB.findFileInZip zip (normalizeFilePath link) with
      | none => exact hacc
      | some file =>
        by_cases hfn : (splitSlash (normalizeFilePath link)).getLastD "" = ""
        · simp only [if_pos hfn]
          exact hacc
        · simp only [if_neg hfn]
          rw [List.all_append, hacc]
          simp only [List.all_cons, List.all_nil, Bool.true_and, Bool.and_true]
          rw [strData_append]
          exact listStarts_append_self _ _
/-- C7 counterexample: the part_002 main variant writes under the raw
`'Review Text'` value: the group name `My Group!` appears verbatim as
the output directory, although its sanitized form is `My_Group_`. -/
theorem c7_raw_name_counterexample :
    (processFiles (.arr [ConfigItem.group "My Group!" ["c.txt"]])
        [⟨"c.txt", false, [1]⟩]).output = some [("My Group!/c.txt", [1])] ∧
    sanitizeGroupName "My Group!" = "My_Group_" ∧
    ("My Group!" : String) ≠ "My_Group_" :=
  ⟨by decide, by decide, by decide⟩

/-! ## The normalized-key retrieval gap (claim C10) -/

/-- C10: the segment-wise `findFileInZip` retrieves the suffix-matched
entry by its normalized path while `zip.files` is keyed by the raw
stored path, so an archive whose entry's stored path differs from its
normalization (here a doubled slash) yields `none` even though a
suffix-matching entry exists. -/
theorem c10_raw_key_mismatch :
    ∃ (zip : List ZipEntry) (searchPath : String) (e : ZipEntry),
      e ∈ zip ∧ e.name ≠ normalizeFilePath e.name ∧
      matchFromEnd (splitSlash (normalizeFilePath e.name))
        (splitSlash (normalizeFilePath searchPath)) = true ∧
      findFileInZip zip searchPath = none :=
  ⟨[⟨"a//b/c.txt", false, [1]⟩], "b/c.txt", ⟨"a//b/c.txt", false, [1]⟩,
    by decide, by decide, by decide, by decide⟩

/-! ## Keyword classification is normalization-invariant (claim C5)

`determineOperation` tests the raw link; the spec phrases the test on
the normalized link.  The two agree because normalization only touches
slash characters: it never deletes a non-slash character and never makes
two non-slash characters adjacent that were not already adjacent, so
occurrence of a slash-free, backslash-free needle (such as `update` or
`modify`, lowercased) is invariant under each normalization stage. -/

theorem starts_map_congr :
    ∀ (nd d : List Char), (∀ c ∈ nd, c ≠ '/' ∧ c ≠ '\\') →
      listStarts nd (d.map (fun c => Char.toLower (repl c)))
        = listStarts nd (d.map Char.toLower)
  | [], d, _ => by cases d <;> rfl
  | _ :: _, [], _ => rfl
  | n :: ns, c :: ds, h => by
    have hn := h n (List.mem_cons_self _ _)
    rw [List.map_cons, List.map_cons]
    by_cases hc : c = '\\'
    · subst hc
      unfold listStarts
      rw [if_neg (by rw [show Char.toLower (repl '\\') = '/' from by decide]; exact hn.1)]
      rw [if_neg (by rw [show Char.toLower '\\' = '\\' from by decide]; exact hn.2)]
    · rw [show repl c = c by simp [repl, hc]]
      unfold listStarts
      by_cases hnc : n = Char.toLower c
      · rw [if_pos hnc, if_pos hnc]
        exact starts_map_congr ns ds (fun x hx => h x (List.mem_cons_of_mem _ hx))
      · rw [if_neg hnc, if_neg hnc]

theorem hasSub_map_congr :
    ∀ (nd d : List Char), (∀ c ∈ nd, c ≠ '/' ∧ c ≠ '\\') →
      hasSubL nd (d.map (fun c => Char.toLower (repl c))) = hasSubL nd (d.map Char.toLower)
  | _, [], _ => rfl
  | nd, c :: ds, h => by
    have h1 := starts_map_congr nd (c :: ds) h
    have h2 := hasSub_map_congr nd ds h
    rw [List.map_cons, List.map_cons] at h1 ⊢
    unfold hasSubL
    rw [h1, h2]

theorem hasSub_dropSlash (nd : List Char) (hne : nd ≠ []) (hs : ∀ c ∈ nd, c ≠ '/') :
    ∀ m : List Char, hasSubL nd ((m.dropWhile (fun c => c = '/')).map Char.toLower)
      = hasSubL nd (m.map Char.toLower)
  | [] => rfl
  | c :: m' => by
    by_cases hc : c = '/'
    · rw [List.dropWhile_cons_of_pos (by simpa using hc)]
      rw [hasSub_dropSlash nd hne hs m']
      obtain ⟨n, ns, rfl⟩ : ∃ n ns, nd = n :: ns := by
        cases nd with
        | nil => exact absurd rfl hne
        | cons n ns => exact ⟨n, ns, rfl⟩
      subst hc
      rw [List.map_cons]
      rw [show hasSubL (n :: ns) (Char.toLower '/' :: m'.map Char.toLower)
          = (listStarts (n :: ns) (Char.toLower '/' :: m'.map Char.toLower)
            || hasSubL (n :: ns) (m'.map Char.toLower)) from rfl]
      rw [show listStarts (n :: ns) (Char.toLower '/' :: m'.map Char.toLower)
          = (if n = Char.toLower '/' then listStarts ns (m'.map Char.toLower) else false)
        from rfl]
      rw [if_neg (by
        rw [show Char.toLower '/' = '/' from by decide]
        exact hs n (List.mem_cons_self _ _))]
      rw [Bool.false_or]
    · rw [List.dropWhile_cons_of_neg (by simpa using hc)]

theorem starts_collapse :
    ∀ (m nd : List Char), (∀ c ∈ nd, c ≠ '/') →
      listStarts nd ((collapse m).map Char.toLower) = listStarts nd (m.map Char.toLower) := by
  intro m
  induction m with
  | nil => intro nd _; rfl
  | cons a m' ih =>
    intro nd hs
    cases m' with
    | nil => rfl
    | cons b rest =>
      by_cases hab : a = '/' ∧ b = '/'
      · rw [show collapse (a :: b :: rest) = collapse (b :: rest) by simp [collapse, hab]]
        rw [ih nd hs]
        cases nd with
        | nil => rfl
        | cons n ns =>
          have hn := hs n (List.mem_cons_self _ _)
          obtain ⟨ha, hb⟩ := hab
          subst ha
          subst hb
          rw [List.map_cons, List.map_cons, List.map_cons]
          unfold listStarts
          rw [if_neg (by rw [show Char.toLower '/' = '/' from by decide]; exact hn)]
          rw [if_neg (by rw [show Char.toLower '/' = '/' from by decide]; exact hn)]
      · rw [show collapse (a :: b :: rest) = a :: collapse (b :: rest) by simp [collapse, hab]]
        cases nd with
        | nil => rfl
        | cons n ns =>
          rw [List.map_cons, List.map_cons]
          unfold listStarts
          by_cases hnc : n = Char.toLower a
          · rw [if_pos hnc, if_pos hnc]
            exact ih ns (fun c hc => hs c (List.mem_cons_of_mem _ hc))
          · rw [if_neg hnc, if_neg hnc]

theorem hasSub_collapse :
    ∀ (m nd : List Char), nd ≠ [] → (∀ c ∈ nd, c ≠ '/') →
      hasSubL nd ((collapse m).map Char.toLower) = hasSubL nd (m.map Char.toLower) := by
  intro m
  induction m with
  | nil => intro nd _ _; rfl
  | cons a m' ih =>
    intro nd hne hs
    cases m' with
    | nil => rfl
    | cons b rest =>
      by_cases hab : a = '/' ∧ b = '/'
      · rw [show collapse (a :: b :: rest) = collapse (b :: rest) by simp [collapse, hab]]
        rw [ih nd hne hs]
        obtain ⟨n, ns, rfl⟩ : ∃ n ns, nd = n :: ns := by
          cases nd with
          | nil => exact absurd rfl hne
          | cons n ns => exact ⟨n, ns, rfl⟩
        have hn := hs n (List.mem_cons_self _ _)
        obtain ⟨ha, _⟩ := hab
        subst ha
        rw [show (('/' :: b :: rest).map Char.toLower)
            = (Char.toLower '/' :: (b :: rest).map Char.toLower) from rfl]
        rw [show hasSubL (n :: ns) (Char.toLower '/' :: (b :: rest).map Char.toLower)
            = (listStarts (n :: ns) (Char.toLower '/' :: (b :: rest).map Char.toLower)
              || hasSubL (n :: ns) ((b :: rest).map Char.toLower)) from rfl]
        rw [show listStarts (n :: ns) (Char.toLower '/' :: (b :: rest).map Char.toLower)
            = (if n = Char.toLower '/' then listStarts ns ((b :: rest).map Char.toLower)
              else false) from rfl]
        rw [if_neg (by rw [show Char.toLower '/' = '/' from by decide]; exact hn)]
        rw [Bool.false_or]
      · have hP := starts_collapse (a :: b :: rest) nd hs
        rw [show collapse (a :: b :: rest) = a :: collapse (b :: rest)
          by simp [collapse, hab]] at hP ⊢
        rw [show ((a :: collapse (b :: rest)).map Char.toLower)
            = (Char.toLower a :: (collapse (b :: rest)).map Char.toLower) from rfl] at hP ⊢
        rw [show ((a :: b :: rest).map Char.toLower)
            = (Char.toLower a :: (b :: rest).map Char.toLower) from rfl] at hP ⊢
        rw [show hasSubL nd (Char.toLower a :: (collapse (b :: rest)).map Char.toLower)
            = (listStarts nd (Char.toLower a :: (collapse (b :: rest)).map Char.toLower)
              || hasSubL nd ((collapse (b :: rest)).map Char.toLower)) from rfl]
        rw [show hasSubL nd (Char.toLower a :: (b :: rest).map Char.toLower)
            = (listStarts nd (Char.toLower a :: (b :: rest).map Char.toLower)
              || hasSubL nd ((b :: rest).map Char.toLower)) from rfl]
        rw [ih nd hne hs, hP]

/-- C5: for every link, the operation assigned by `determineOperation`
(which the processing loop applies to the raw link on resolver success)
is `update` exactly when the normalized link, lowercased, contains
`update` or `modify`, and `insert` otherwise. -/
theorem c5_update_classification (link : String) :
    (determineOperation link = Operation.update ↔
      (hasSubStr "update" (lowerStr (normalizeFilePath link)) = true ∨
       hasSubStr "modify" (lowerStr (normalizeFilePath link)) = true)) ∧
    (determineOperation link = Operation.insert ↔
      ¬ (hasSubStr "update" (lowerStr (normalizeFilePath link)) = true ∨
         hasSubStr "modify" (lowerStr (normalizeFilePath link)) = true)) := by
  have key : ∀ nd : List Char, nd ≠ [] → (∀ c ∈ nd, c ≠ '/' ∧ c ≠ '\\') →
      hasSubL nd (lowerStr (normalizeFilePath link)).data
        = hasSubL nd (lowerStr link).data := by
    intro nd hne h
    have hs : ∀ c ∈ nd, c ≠ '/' := fun c hc => (h c hc).1
    show hasSubL nd
        ((collapse ((link.data.map repl).dropWhile (fun c => c = '/'))).map Char.toLower)
      = hasSubL nd (link.data.map Char.toLower)
    rw [hasSub_collapse _ nd hne hs]
    rw [hasSub_dropSlash nd hne hs (link.data.map repl)]
    rw [List.map_map]
    exact hasSub_map_congr nd link.data h
  have hu := key "update".data (by decide) (by decide)
  have hm := key "modify".data (by decide) (by decide)
  have heq : (hasSubStr "update" (lowerStr (normalizeFilePath link))
        || hasSubStr "modify" (lowerStr (normalizeFilePath link)))
      = (hasSubStr "update" (lowerStr link) || hasSubStr "modify" (lowerStr link)) := by
    show (hasSubL "update".data (lowerStr (normalizeFilePath link)).data
        || hasSubL "modify".data (lowerStr (normalizeFilePath link)).data) = _
    rw [hu, hm]
    rfl
  unfold determineOperation
  by_cases hcase : (hasSubStr "update" (lowerStr link)
      || hasSubStr "modify" (lowerStr link)) = true
  · rw [if_pos hcase]
    have hor : hasSubStr "update" (lowerStr (normalizeFilePath link)) = true ∨
        hasSubStr "modify" (lowerStr (normalizeFilePath link)) = true := by
      have : (hasSubStr "update" (lowerStr (normalizeFilePath link))
          || hasSubStr "modify" (lowerStr (normalizeFilePath link))) = true := by
        rw [heq]
        exact hcase
      simpa using this
    refine ⟨⟨fun _ => hor, fun _ => rfl⟩, ?_⟩
    exact iff_of_false (by decide) (fun hno => hno hor)
  · rw [if_neg hcase]
    have hnor : ¬ (hasSubStr "update" (lowerStr (normalizeFilePath link)) = true ∨
        hasSubStr "modify" (lowerStr (normalizeFilePath link)) = true) := by
      intro hor
      apply hcase
      rw [← heq]
      simpa using hor
    refine ⟨iff_of_false (by decide) hnor, ⟨fun _ => hnor, fun _ => rfl⟩⟩
